import Mathlib

/-!
Verification development for the conversation-persistence subsystem of the
AI-Tuning-JS repository: a shallow embedding in Lean 4 of
`src/utils/persistent-vector-store.js` (class `PersistentVectorStore`, the
spec's `VectorMemoryStore`) and of the session manager in
`src/utils/vertex-ai-embedding.js` (class `SessionManager`, the spec's
`SessionStore`/`AutosaveController`), together with theorems settling the
frozen claims about them.

Modelling conventions:
* JavaScript numbers are idealized as exact rationals (`ℚ`); the real-valued
  cosine similarity (which involves square roots) lives in `ℝ`.
* A JS `Map` is an insertion-ordered association list `List (String × β)`;
  `Map.set` overwrites in place (keeping the original position) or appends.
* The filesystem is an association list from file names to parsed contents;
  a write conses the new binding in front (lookup finds the newest binding).
  Disk writes are modelled as always succeeding; the `catch` branches that
  swallow write errors are not exercised by any claim.
* Wall-clock timestamps and generated ids are explicit parameters of the
  operations (the source draws them from `Date.now()` / `Math.random()`).
* The stores are modelled in their post-`load` state: every method of
  `PersistentVectorStore` begins with `if (!this.isLoaded) await this.load()`,
  which only matters for the first call; `load` itself is modelled by
  `PVS.loadStore`.
-/

namespace PVS

/-- Metadata attached to a stored vector by `PersistentVectorStore.store`:
the source spreads the caller's metadata object and adds `timestamp` and
`dimensions`; only the two added fields are observed by any claim. -/
structure VMeta where
  timestamp : ℕ
  dimensions : ℕ
  deriving DecidableEq, Repr

/-- State of a `PersistentVectorStore` after loading: `memoryStore` and
`metadata` are insertion-ordered JS `Map`s; `saveCount` counts how many times
`save()` has flushed the whole store to disk. -/
structure Store where
  entries : List (String × List ℚ)
  metadata : List (String × VMeta)
  saveCount : ℕ
  deriving DecidableEq, Repr

/-- The store as built by the constructor (before any data is loaded). -/
def emptyStore : Store := ⟨[], [], 0⟩

/-- JS `Map.set` semantics on an association list: overwrite the value of an
existing key in place (keeping its insertion position), else append. -/
def mapSet (l : List (String × β)) (k : String) (v : β) : List (String × β) :=
  if l.any (fun e => e.1 = k) then
    l.map (fun e => if e.1 = k then (k, v) else e)
  else
    l ++ [(k, v)]

/-- JS `Map.delete` semantics: remove the binding of `k` (if any). -/
def mapErase (l : List (String × β)) (k : String) : List (String × β) :=
  l.filter (fun e => ¬ e.1 = k)

/-- Dot product from `cosineSimilarity`:
`vecA.reduce((sum, a, i) => sum + a * vecB[i], 0)`.
(When the two vectors have equal length this is exactly the source's loop;
the claims about similarity are stated under that equal-length hypothesis.) -/
def dotProd (vecA vecB : List ℚ) : ℚ :=
  (List.zipWith (fun a b => a * b) vecA vecB).sum

/-- Sum of squares of a vector: the quantity whose square root is the
magnitude computed in `cosineSimilarity`. -/
def sqMag (v : List ℚ) : ℚ :=
  (v.map (fun a => a * a)).sum

/-- Cosine similarity from `PersistentVectorStore.cosineSimilarity`:
`dotProduct / (magnitudeA * magnitudeB)` with `magnitude = Math.sqrt (Σ a²)`. -/
noncomputable def cosineSimilarity (vecA vecB : List ℚ) : ℝ :=
  (dotProd vecA vecB : ℝ) /
    (Real.sqrt (sqMag vecA : ℝ) * Real.sqrt (sqMag vecB : ℝ))

/-- Exact representation of the similarity value `dot / √S` computed by
`search` for one stored vector: the pair `(dot q v, sqMag v)`. The common
positive factor `1 / √(sqMag q)` of all similarities in one `search` call is
dropped; it does not affect the comparisons made by the sort. -/
def simRep (q v : List ℚ) : ℚ × ℚ := (dotProd q v, sqMag v)

/-- Exact comparison of two represented similarity values: decides
`x₁/√s₁ > x₂/√s₂` (for positive `s₁`, `s₂`) by sign analysis and
cross-multiplied squares, in rational arithmetic. -/
def simGtB : ℚ × ℚ → ℚ × ℚ → Bool
  | (x1, s1), (x2, s2) =>
    if 0 < x1 then
      if 0 < x2 then decide (x2 * x2 * s1 < x1 * x1 * s2) else true
    else
      if 0 ≤ x2 then false
      else decide (x1 * x1 * s2 < x2 * x2 * s1)

/-- Insert `x` into a descending-sorted list, placing it after every element
not strictly below it: the position a stable descending sort gives. -/
def insertDesc (gt : α → α → Bool) (x : α) : List α → List α
  | [] => [x]
  | y :: ys => if gt x y then x :: y :: ys else y :: insertDesc gt x ys

/-- Stable descending sort (insertion sort, processing left to right): the
extensional behavior of JS `Array.prototype.sort` — which is stable — under
the comparator `(a, b) => b.similarity - a.similarity`. -/
def stableSortDesc (gt : α → α → Bool) (l : List α) : List α :=
  l.foldl (fun acc x => insertDesc gt x acc) []

/-- `PersistentVectorStore.search(queryVector, numNeighbors)`: compute the
similarity of the query with every stored vector (in insertion order), sort
by descending similarity (stable), take the first `numNeighbors`, return ids. -/
def search (st : Store) (queryVector : List ℚ) (numNeighbors : ℕ) : List String :=
  let similarities := st.entries.map (fun e => (e.1, simRep queryVector e.2))
  let sorted := stableSortDesc (fun a b => simGtB a.2 b.2) similarities
  (sorted.take numNeighbors).map Prod.fst

/-- `PersistentVectorStore.store(id, vector, metadata)`: upsert into both
maps, then flush to disk when the map size is a multiple of 10
(`this.memoryStore.size % 10 === 0`). Returns the `true` the source returns
(the `try` block around pure map operations cannot throw). -/
def store (st : Store) (id : String) (vector : List ℚ) (ts : ℕ) :
    Store × Bool :=
  let entries' := mapSet st.entries id vector
  let metadata' := mapSet st.metadata id ⟨ts, vector.length⟩
  let flush := entries'.length % 10 = 0
  (⟨entries', metadata', st.saveCount + (if flush then 1 else 0)⟩, true)

/-- `PersistentVectorStore.delete(id)`:
`const deleted = this.memoryStore.delete(id) && this.metadata.delete(id)` —
`&&` short-circuits, so the metadata map is only touched when the id was in
`memoryStore`; `save()` runs only when both deletions reported `true`. -/
def delete (st : Store) (id : String) : Store × Bool :=
  if st.entries.any (fun e => e.1 = id) then
    let entries' := mapErase st.entries id
    if st.metadata.any (fun e => e.1 = id) then
      (⟨entries', mapErase st.metadata id, st.saveCount + 1⟩, true)
    else
      (⟨entries', st.metadata, st.saveCount⟩, false)
  else
    (st, false)

/-- `PersistentVectorStore.load()` applied to a parsed persisted file: for
each id under `vectors` set the embedding, and set its metadata only when
the file's `metadata` object has that id. -/
def loadStore (vectors : List (String × List ℚ)) (md : List (String × VMeta)) :
    Store :=
  vectors.foldl
    (fun st e =>
      { st with
        entries := mapSet st.entries e.1 e.2
        metadata :=
          match md.lookup e.1 with
          | some m => mapSet st.metadata e.1 m
          | none => st.metadata })
    emptyStore

/-- The embedding stored under an id (the claims use it only for ids that
are present, where the default is irrelevant). -/
def vecOf (st : Store) (id : String) : List ℚ :=
  (st.entries.lookup id).getD []

/-- Insertion index of an id among the store's keys. -/
def idxOf (st : Store) (id : String) : ℕ :=
  (st.entries.map Prod.fst).indexOf id

end PVS

namespace SM

/-- One conversation message, as built by `SessionManager.addMessage`
(timestamps are epoch milliseconds; the optional extra-metadata spread of the
source is not passed by any claim and is elided). -/
structure Message where
  role : String
  content : String
  timestamp : ℕ
  messageId : String
  deriving DecidableEq, Repr

/-- `this.sessionMetadata`: `sessionName`/`originalName` are absent until a
save writes them; the write-only `savedAt`/`backupCreatedAt` fields are not
observed by any claim and are elided. -/
structure SMeta where
  createdAt : ℕ
  lastModified : ℕ
  messageCount : ℕ
  sessionId : String
  sessionName : Option String
  originalName : Option String
  deriving DecidableEq, Repr

/-- The shape-relevant part of a parsed session file: `metadata` and
`conversationHistory` may each be absent (or of the wrong type, which the
source treats the same way as absent). -/
structure SessionFile where
  metadata : Option SMeta
  conversationHistory : Option (List Message)
  deriving DecidableEq, Repr

/-- A file on disk: either JSON that parses to a session-file shape, or
content on which `JSON.parse` throws. -/
inductive DiskFile where
  | parsed (f : SessionFile)
  | invalid
  deriving DecidableEq, Repr

/-- The save directory: newest binding first; `fs.writeFile` conses. -/
abbrev FS := List (String × DiskFile)

/-- In-memory state of a `SessionManager`. -/
structure State where
  conversationHistory : List Message
  currentSessionName : Option String
  sessionMetadata : SMeta
  unsavedChanges : Bool
  autoSaveOnExit : Bool
  exitSaveInProgress : Bool
  deriving DecidableEq, Repr

/-- The constructor's state: empty history, fresh metadata, all flags off. -/
def fresh (now : ℕ) (sid : String) : State :=
  ⟨[], none, ⟨now, now, 0, sid, none, none⟩, false, false, false⟩

/-- Name sanitization `name.replace(/[^a-zA-Z0-9\-_]/g, '_')`, written on the
character list of the string. -/
def sanitize (name : String) : String :=
  ⟨name.data.map (fun c => if c.isAlphanum ∨ c = '-' ∨ c = '_' then c else '_')⟩

/-- The guard `!sessionName || sessionName.trim() === ''` of the save, load
and delete operations: the name is empty or entirely whitespace. -/
def isBlank (name : String) : Bool :=
  name.data.all (fun c => c.isWhitespace)

/-- `SessionManager.addMessage(role, content)`: append the message, bump
`messageCount`, touch `lastModified`, set the dirty flag. The source
validates nothing here. -/
def addMessage (s : State) (role content : String) (ts : ℕ) (mid : String) :
    State :=
  { s with
    conversationHistory := s.conversationHistory ++ [⟨role, content, ts, mid⟩]
    sessionMetadata :=
      { s.sessionMetadata with
        messageCount := s.sessionMetadata.messageCount + 1
        lastModified := ts }
    unsavedChanges := true }

/-- `SessionManager.clearSession()`: empty history, fresh metadata, keep the
autosave flags. -/
def clearSession (s : State) (now : ℕ) (sid : String) : State :=
  { conversationHistory := []
    currentSessionName := none
    sessionMetadata := ⟨now, now, 0, sid, none, none⟩
    unsavedChanges := false
    autoSaveOnExit := s.autoSaveOnExit
    exitSaveInProgress := s.exitSaveInProgress }

/-- `SessionManager.saveSession(sessionName)`: `none` models the throw on an
empty (or all-blank) name; otherwise write
`<sanitized>.json` containing the spread metadata (with `sessionName` and
`originalName` filled in) plus the history, set `currentSessionName` to the
sanitized name and clear the dirty flag. The write is modelled as
succeeding, so the source's return value is `true`. -/
def saveSession (s : State) (fs : FS) (sessionName : String) :
    Option (State × FS) :=
  if isBlank sessionName then none
  else
    let san := sanitize sessionName
    let file : SessionFile :=
      { metadata := some
          { s.sessionMetadata with
            sessionName := some san
            originalName := some sessionName }
        conversationHistory := some s.conversationHistory }
    some
      ({ s with currentSessionName := some san, unsavedChanges := false },
        (san ++ ".json", DiskFile.parsed file) :: fs)

/-- The read-and-parse loop of `loadSession`: try each candidate name in
order; a missing file or a `JSON.parse` failure moves on to the next name; a
successfully parsed file ends the loop (shape is validated only afterwards). -/
def findSessionFile (fs : FS) : List String → Option SessionFile
  | [] => none
  | n :: rest =>
    match fs.lookup (n ++ ".json") with
    | some (DiskFile.parsed f) => some f
    | _ => findSessionFile fs rest

/-- `SessionManager.loadSession(sessionName)`: `none` models the throw on an
empty name. Try the exact then the sanitized name; if no candidate parses,
return `false` with the state untouched. If the parsed file has a
`conversationHistory` array, replace the history, take the file's metadata
when present (else keep the current one), set `currentSessionName` from the
file's `metadata.sessionName` (else the requested name), clear the dirty
flag, and return `true`; otherwise return `false` with the state untouched. -/
def loadSession (s : State) (fs : FS) (sessionName : String) :
    Option (State × Bool) :=
  if isBlank sessionName then none
  else
    match findSessionFile fs [sessionName, sanitize sessionName] with
    | none => some (s, false)
    | some f =>
      match f.conversationHistory with
      | some h =>
        some
          ({ s with
              conversationHistory := h
              sessionMetadata := f.metadata.getD s.sessionMetadata
              currentSessionName :=
                some ((f.metadata.bind (fun m => m.sessionName)).getD sessionName)
              unsavedChanges := false },
            true)
      | none => some (s, false)

/-- `SessionManager.saveOnExit()`: bail out when an exit save is already in
progress, when autosave is disabled, or when the history is empty; otherwise
set the in-progress flag, synthesize `auto_save_<unixTime>` when no session
name exists, save, and (in the source's `finally`) clear the flag again. -/
def saveOnExit (s : State) (fs : FS) (now : ℕ) : State × FS × Bool :=
  if s.exitSaveInProgress then (s, fs, false)
  else if ¬ s.autoSaveOnExit then (s, fs, false)
  else if s.conversationHistory.isEmpty then (s, fs, false)
  else
    let name := s.currentSessionName.getD ("auto_save_" ++ toString now)
    let s1 := { s with
      exitSaveInProgress := true
      currentSessionName := some name }
    match saveSession s1 fs name with
    | some (s2, fs2) => ({ s2 with exitSaveInProgress := false }, fs2, true)
    | none => ({ s1 with exitSaveInProgress := false }, fs, false)

/-- One operation of the claim "every sequence of SessionManager operations":
the generated timestamps and ids are carried inside the operation. -/
inductive Op where
  | add (role content : String) (ts : ℕ) (mid : String)
  | clear (ts : ℕ) (sid : String)
  | save (name : String)
  | load (name : String)

/-- Run one operation against the in-memory state and the save directory; an
operation that throws (empty name) propagates to the caller before any
mutation, leaving both unchanged. -/
def step (p : State × FS) (op : Op) : State × FS :=
  match op with
  | .add r c t m => (addMessage p.1 r c t m, p.2)
  | .clear t sid => (clearSession p.1 t sid, p.2)
  | .save n =>
    match saveSession p.1 p.2 n with
    | none => p
    | some q => q
  | .load n =>
    match loadSession p.1 p.2 n with
    | none => p
    | some (s', _) => (s', p.2)

/-- Hour of day of a timestamp, as used by `getAnalytics` (hours are taken in
a fixed (UTC) timezone; `getHours` uses the host timezone, which shifts which
hour each message falls in but not the counting or tie-breaking logic). -/
def hourOf (ts : ℕ) : ℕ := ts / 3600000 % 24

/-- Number of messages of `history` recorded during hour `h`
(`hourCounts[h]`, with absent keys reading as 0 — in the source an absent
key yields `undefined`, and every comparison `undefined > n` is false, just
as `0 > n` is). -/
def hourCount (history : List Message) (h : ℕ) : ℕ :=
  (history.filter (fun m => hourOf m.timestamp = h)).length

/-- The ascending list of hours that occur in the history:
`Object.keys(hourCounts)` — integer-like keys enumerate in ascending order. -/
def hourKeys (history : List Message) : List ℕ :=
  (List.range 24).filter (fun h => 0 < hourCount history h)

/-- `getAnalytics`'s most-active-hour computation:
`Object.keys(hourCounts).reduce((a, b) => hourCounts[a] > hourCounts[b] ? a : b, '0')`. -/
def mostActiveHour (history : List Message) : ℕ :=
  (hourKeys history).foldl
    (fun a b => if hourCount history a > hourCount history b then a else b) 0

/-- A well-formed session file: metadata and history are present and the
recorded `messageCount` is the length of the history. Every file that
`saveSession` writes has this shape. -/
def goodFile (f : SessionFile) : Prop :=
  ∃ m h, f.metadata = some m ∧ f.conversationHistory = some h ∧
    m.messageCount = h.length

/-- Every file in the directory parses and is well formed. -/
def goodFS (fs : FS) : Prop :=
  ∀ p ∈ fs, ∃ f, p.2 = DiskFile.parsed f ∧ goodFile f

/-- The `messageCount` invariant together with the directory invariant that
makes it inductive. -/
def InvMC (p : State × FS) : Prop :=
  p.1.sessionMetadata.messageCount = p.1.conversationHistory.length ∧ goodFS p.2

end SM


namespace SM

theorem lookup_mem {β : Type} {l : List (String × β)} {k : String} {v : β}
    (h : l.lookup k = some v) : (k, v) ∈ l := by
  induction l with
  | nil => simp [List.lookup] at h
  | cons e t ih =>
    obtain ⟨k', v'⟩ := e
    rw [List.lookup_cons] at h
    by_cases hk : k = k'
    · subst hk
      simp at h
      simp [h]
    · rw [beq_false_of_ne hk] at h
      exact List.mem_cons_of_mem _ (ih h)

theorem saveSession_of_blank {s : State} {fs : FS} {name : String}
    (hb : isBlank name = true) : saveSession s fs name = none := by
  simp [saveSession, hb]

theorem saveSession_of_notBlank {s : State} {fs : FS} {name : String}
    (hb : isBlank name = false) :
    saveSession s fs name = some
      ({ s with currentSessionName := some (sanitize name), unsavedChanges := false },
        (sanitize name ++ ".json",
          DiskFile.parsed
            { metadata := some
                { s.sessionMetadata with
                  sessionName := some (sanitize name)
                  originalName := some name }
              conversationHistory := some s.conversationHistory }) :: fs) := by
  simp [saveSession, hb]

theorem loadSession_of_blank {s : State} {fs : FS} {name : String}
    (hb : isBlank name = true) : loadSession s fs name = none := by
  simp [loadSession, hb]

theorem loadSession_of_notFound {s : State} {fs : FS} {name : String}
    (hb : isBlank name = false)
    (hf : findSessionFile fs [name, sanitize name] = none) :
    loadSession s fs name = some (s, false) := by
  simp [loadSession, hb, hf]

theorem loadSession_of_badShape {s : State} {fs : FS} {name : String}
    {f : SessionFile} (hb : isBlank name = false)
    (hf : findSessionFile fs [name, sanitize name] = some f)
    (hch : f.conversationHistory = none) :
    loadSession s fs name = some (s, false) := by
  simp [loadSession, hb, hf, hch]

theorem loadSession_of_found {s : State} {fs : FS} {name : String}
    {f : SessionFile} {h : List Message} (hb : isBlank name = false)
    (hf : findSessionFile fs [name, sanitize name] = some f)
    (hch : f.conversationHistory = some h) :
    loadSession s fs name = some
      ({ s with
          conversationHistory := h
          sessionMetadata := f.metadata.getD s.sessionMetadata
          currentSessionName :=
            some ((f.metadata.bind (fun m => m.sessionName)).getD name)
          unsavedChanges := false },
        true) := by
  simp [loadSession, hb, hf, hch]

theorem findSessionFile_mem {fs : FS} {f : SessionFile} :
    ∀ {names : List String}, findSessionFile fs names = some f →
      ∃ n, (n, DiskFile.parsed f) ∈ fs
  | [], h => by simp [findSessionFile] at h
  | n :: rest, h => by
    rw [findSessionFile] at h
    cases hl : fs.lookup (n ++ ".json") with
    | none =>
      rw [hl] at h
      have h' : findSessionFile fs rest = some f := h
      exact findSessionFile_mem h' 
    | some d =>
      cases d with
      | parsed f' =>
        rw [hl] at h
        cases h
        exact ⟨n ++ ".json", lookup_mem hl⟩
      | invalid =>
        rw [hl] at h
        have h' : findSessionFile fs rest = some f := h
        exact findSessionFile_mem h' 

theorem invMC_step (p : State × FS) (op : Op) (hp : InvMC p) :
    InvMC (step p op) := by
  obtain ⟨hmc, hfs⟩ := hp
  cases op with
  | add r c t m =>
    refine ⟨?_, hfs⟩
    simp [step, addMessage, hmc]
  | clear t sid =>
    exact ⟨rfl, hfs⟩
  | save n =>
    cases hb : isBlank n with
    | true => simp only [step, saveSession_of_blank hb]; exact ⟨hmc, hfs⟩
    | false =>
      simp only [step, saveSession_of_notBlank hb]
      refine ⟨hmc, ?_⟩
      intro e he
      rcases List.mem_cons.mp he with he' | he'
      · subst he'
        exact ⟨_, rfl, ⟨_, p.1.conversationHistory, rfl, rfl, hmc⟩⟩
      · exact hfs e he'
  | load n =>
    cases hb : isBlank n with
    | true => simp only [step, loadSession_of_blank hb]; exact ⟨hmc, hfs⟩
    | false =>
      cases hf : findSessionFile p.2 [n, sanitize n] with
      | none =>
        simp only [step, loadSession_of_notFound hb hf]
        exact ⟨hmc, hfs⟩
      | some f =>
        obtain ⟨n', hmemf⟩ := findSessionFile_mem hf
        obtain ⟨f', hf', hgood⟩ := hfs _ hmemf
        obtain rfl : f = f' := by injection hf'
        obtain ⟨m, hh, hmeta', hhist', hcount'⟩ := hgood
        cases hch : f.conversationHistory with
        | none =>
          simp only [step, loadSession_of_badShape hb hf hch]
          exact ⟨hmc, hfs⟩
        | some h =>
          simp only [step, loadSession_of_found hb hf hch]
          refine ⟨?_, hfs⟩
          rw [hch] at hhist'
          obtain rfl := Option.some.inj hhist'
          simp [hmeta', hcount']

theorem invMC_foldl (ops : List Op) :
    ∀ p : State × FS, InvMC p → InvMC (ops.foldl step p) := by
  induction ops with
  | nil => exact fun p hp => hp
  | cons op rest ih =>
    intro p hp
    exact ih _ (invMC_step p op hp)

/-- Message built from an `addMessage` call description. -/
def msgOf (a : String × String × ℕ × String) : Message :=
  ⟨a.1, a.2.1, a.2.2.1, a.2.2.2⟩

theorem foldl_add_history (adds : List (String × String × ℕ × String)) :
    ∀ p : State × FS,
      ((adds.map (fun a => Op.add a.1 a.2.1 a.2.2.1 a.2.2.2)).foldl step p).1.conversationHistory
          = p.1.conversationHistory ++ adds.map msgOf ∧
        ((adds.map (fun a => Op.add a.1 a.2.1 a.2.2.1 a.2.2.2)).foldl step p).1.sessionMetadata.messageCount
          = p.1.sessionMetadata.messageCount + adds.length := by
  induction adds with
  | nil => intro p; simp
  | cons a rest ih =>
    intro p
    obtain ⟨ih1, ih2⟩ := ih (step p (Op.add a.1 a.2.1 a.2.2.1 a.2.2.2))
    constructor
    · rw [List.map_cons, List.foldl_cons, ih1]
      simp [step, addMessage, msgOf]
    · rw [List.map_cons, List.foldl_cons, ih2]
      simp [step, addMessage]
      ring

end SM


namespace SM

/-- The body of the `reduce` in `getAnalytics`, as a named fold so that its
properties can be stated: running maximum-count key, later keys winning ties. -/
def pickMax (cnt : ℕ → ℕ) (a : ℕ) (l : List ℕ) : ℕ :=
  l.foldl (fun x b => if cnt x > cnt b then x else b) a

theorem mostActiveHour_eq_pickMax (history : List Message) :
    mostActiveHour history = pickMax (hourCount history) 0 (hourKeys history) :=
  rfl

theorem pickMax_mem (cnt : ℕ → ℕ) :
    ∀ (l : List ℕ) (a : ℕ), pickMax cnt a l ∈ a :: l := by
  intro l
  induction l with
  | nil => intro a; simp [pickMax]
  | cons b t ih =>
    intro a
    rw [show pickMax cnt a (b :: t) = pickMax cnt (if cnt a > cnt b then a else b) t from rfl]
    have h := ih (if cnt a > cnt b then a else b)
    by_cases hab : cnt a > cnt b
    · rw [if_pos hab] at h ⊢
      rcases List.mem_cons.mp h with h' | h'
      · rw [h']; exact List.mem_cons_self _ _
      · exact List.mem_cons_of_mem _ (List.mem_cons_of_mem _ h')
    · rw [if_neg hab] at h ⊢
      rcases List.mem_cons.mp h with h' | h'
      · rw [h']; exact List.mem_cons_of_mem _ (List.mem_cons_self _ _)
      · exact List.mem_cons_of_mem _ (List.mem_cons_of_mem _ h')

theorem pickMax_ge (cnt : ℕ → ℕ) :
    ∀ (l : List ℕ) (a : ℕ), ∀ x ∈ a :: l, cnt x ≤ cnt (pickMax cnt a l) := by
  intro l
  induction l with
  | nil => intro a x hx; rcases List.mem_singleton.mp hx with rfl; simp [pickMax]
  | cons b t ih =>
    intro a x hx
    rw [show pickMax cnt a (b :: t) = pickMax cnt (if cnt a > cnt b then a else b) t from rfl]
    have hinit : cnt a ≤ cnt (if cnt a > cnt b then a else b) ∧
        cnt b ≤ cnt (if cnt a > cnt b then a else b) := by
      by_cases hab : cnt a > cnt b
      · rw [if_pos hab]; exact ⟨le_refl _, le_of_lt hab⟩
      · rw [if_neg hab]; exact ⟨le_of_not_lt hab, le_refl _⟩
    have hhead := ih (if cnt a > cnt b then a else b) _ (List.mem_cons_self _ _)
    rcases List.mem_cons.mp hx with rfl | hx'
    · exact le_trans hinit.1 hhead
    rcases List.mem_cons.mp hx' with rfl | hx''
    · exact le_trans hinit.2 hhead
    · exact ih _ x (List.mem_cons_of_mem _ hx'')

theorem pickMax_tie (cnt : ℕ → ℕ) :
    ∀ (l : List ℕ) (a : ℕ), (a :: l).Pairwise (· < ·) → ∀ x ∈ a :: l,
      cnt x = cnt (pickMax cnt a l) → x ≤ pickMax cnt a l := by
  intro l
  induction l with
  | nil =>
    intro a _ x hx _
    rcases List.mem_singleton.mp hx with rfl
    simp [pickMax]
  | cons b t ih =>
    intro a hpw x hx heq
    rw [show pickMax cnt a (b :: t) = pickMax cnt (if cnt a > cnt b then a else b) t from rfl] at heq ⊢
    obtain ⟨hhead, htail⟩ := List.pairwise_cons.mp hpw
    have hpw' : ((if cnt a > cnt b then a else b) :: t).Pairwise (· < ·) := by
      by_cases hab : cnt a > cnt b
      · rw [if_pos hab]
        exact List.pairwise_cons.mpr
          ⟨fun y hy => hhead y (List.mem_cons_of_mem _ hy),
            (List.pairwise_cons.mp htail).2⟩
      · rw [if_neg hab]; exact htail
    rcases List.mem_cons.mp hx with rfl | hx'
    · by_cases hab : cnt x > cnt b
      · exact ih _ hpw' x (by rw [if_pos hab]; exact List.mem_cons_self _ _) heq
      · have hmem := pickMax_mem cnt t (if cnt x > cnt b then x else b)
        rw [if_neg hab] at hmem heq ⊢
        rcases List.mem_cons.mp hmem with h' | h'
        · rw [h']
          exact le_of_lt (hhead b (List.mem_cons_self _ _))
        · exact le_of_lt (hhead _ (List.mem_cons_of_mem _ h'))
    · rcases List.mem_cons.mp hx' with rfl | hx''
      · by_cases hab : cnt a > cnt x
        · exfalso
          have hge := pickMax_ge cnt t (if cnt a > cnt x then a else x) a
            (by rw [if_pos hab]; exact List.mem_cons_self _ _)
          rw [if_pos hab] at heq hge
          omega
        · exact ih _ hpw' x (by rw [if_neg hab]; exact List.mem_cons_self _ _) heq
      · exact ih _ hpw' x (List.mem_cons_of_mem _ hx'') heq

end SM

namespace SM

theorem string_append_right_cancel {a b c : String} (h : a ++ c = b ++ c) :
    a = b := by
  have hd := congrArg String.data h
  rw [String.data_append, String.data_append] at hd
  exact String.ext (List.append_cancel_right hd)

theorem hourOf_lt (ts : ℕ) : hourOf ts < 24 :=
  Nat.mod_lt _ (by omega)

theorem mem_hourKeys {history : List Message} {h : ℕ} :
    h ∈ hourKeys history ↔ h < 24 ∧ 0 < hourCount history h := by
  simp [hourKeys, List.mem_filter, List.mem_range]

theorem hourKeys_pairwise (history : List Message) :
    (hourKeys history).Pairwise (· < ·) :=
  (List.pairwise_lt_range 24).filter _

theorem hourCount_pos_lt (history : List Message) (h : ℕ)
    (hc : 0 < hourCount history h) : h < 24 := by
  rw [hourCount, List.length_pos] at hc
  obtain ⟨m, hm⟩ := List.exists_mem_of_ne_nil _ hc
  obtain ⟨-, hm2⟩ := List.mem_filter.mp hm
  have : hourOf m.timestamp = h := by simpa using hm2
  rw [← this]
  exact hourOf_lt _

theorem hourKeys_ne_nil {history : List Message} (hne : history ≠ []) :
    ∃ k ∈ hourKeys history, 0 < hourCount history k := by
  obtain ⟨m, t, rfl⟩ := List.exists_cons_of_ne_nil hne
  refine ⟨hourOf m.timestamp, ?_, ?_⟩
  · refine mem_hourKeys.mpr ⟨hourOf_lt _, ?_⟩
    rw [hourCount, List.length_pos]
    intro hnil
    have : m ∈ List.filter (fun x => decide (hourOf x.timestamp = hourOf m.timestamp)) (m :: t) :=
      List.mem_filter.mpr ⟨List.mem_cons_self _ _, by simp⟩
    rw [hnil] at this
    exact List.not_mem_nil _ this
  · rw [hourCount, List.length_pos]
    intro hnil
    have : m ∈ List.filter (fun x => decide (hourOf x.timestamp = hourOf m.timestamp)) (m :: t) :=
      List.mem_filter.mpr ⟨List.mem_cons_self _ _, by simp⟩
    rw [hnil] at this
    exact List.not_mem_nil _ this

end SM

/-! The claim theorems. Supporting concrete states for counterexamples and
witnesses are defined next to the theorem that uses them. -/

/-- A session with one message, saved before a round-trip test. -/
def c3Prior : SM.State := SM.addMessage (SM.fresh 0 "sid") "user" "hi" 1 "m1"

/-- A save directory that already holds a file under the literal (space
containing) name `a b.json` — reachable, e.g., via
`exportConversation(format, customFileName)`, which sanitizes nothing. -/
def c3ForeignFS : SM.FS :=
  [("a b.json", SM.DiskFile.parsed ⟨some ⟨0, 0, 0, "f", none, none⟩, some []⟩)]

/-- C3 counterexample: for the valid session name `"a b"`, `saveSession`
writes `a_b.json`, but `loadSession` tries the literal name first and reads
the pre-existing `a b.json`, so the round trip returns `true` yet yields the
foreign (empty) history instead of the saved one-message history. -/
theorem roundTrip_shadowed_by_literal_name_file :
    ((SM.saveSession c3Prior c3ForeignFS "a b").bind
        (fun p => (SM.loadSession (SM.fresh 2 "z") p.2 "a b").map
          (fun q => (q.1.conversationHistory, q.2)))) = some ([], true)
    ∧ c3Prior.conversationHistory = [⟨"user", "hi", 1, "m1"⟩] := by
  decide

/-- C3 (amended): when the session name is already sanitized, or no file
exists under the literal unsanitized name, `saveSession` then `loadSession`
on a fresh manager succeeds and reproduces the saved ordered message
sequence and the saved `messageCount`. -/
theorem saveLoad_roundtrip (s : SM.State) (fs : SM.FS) (name : String)
    (t : ℕ) (sid : String)
    (hname : SM.isBlank name = false)
    (hshadow : SM.sanitize name = name ∨ fs.lookup (name ++ ".json") = none) :
    ∃ s1 fs1, SM.saveSession s fs name = some (s1, fs1) ∧
      ∃ s2, SM.loadSession (SM.fresh t sid) fs1 name = some (s2, true) ∧
        s2.conversationHistory = s.conversationHistory ∧
        s2.sessionMetadata.messageCount = s.sessionMetadata.messageCount := by
  refine ⟨_, _, SM.saveSession_of_notBlank hname, ?_⟩
  have hfind :
      SM.findSessionFile
        ((SM.sanitize name ++ ".json",
          SM.DiskFile.parsed
            { metadata := some
                { s.sessionMetadata with
                  sessionName := some (SM.sanitize name)
                  originalName := some name }
              conversationHistory := some s.conversationHistory }) :: fs)
        [name, SM.sanitize name]
      = some
          { metadata := some
              { s.sessionMetadata with
                sessionName := some (SM.sanitize name)
                originalName := some name }
            conversationHistory := some s.conversationHistory } := by
    by_cases hs : SM.sanitize name = name
    · rw [SM.findSessionFile, hs, List.lookup_cons, beq_self_eq_true]
    · have hne : (name ++ ".json" == SM.sanitize name ++ ".json") = false := by
        refine beq_false_of_ne (fun hcontra => ?_)
        exact hs (SM.string_append_right_cancel hcontra).symm
      have hf0 : fs.lookup (name ++ ".json") = none := hshadow.resolve_left hs
      rw [SM.findSessionFile, List.lookup_cons, hne, hf0, SM.findSessionFile,
        List.lookup_cons, beq_self_eq_true]
  refine ⟨_, SM.loadSession_of_found hname hfind rfl, rfl, rfl⟩

/-- State of the C3 witness before saving: one message added to a fresh
session. -/
def c3wPrior : SM.State := SM.addMessage (SM.fresh 0 "z") "user" "hi" 1 "m1"

/-- Witness for C3: the round-trip law applied to the concrete session name
`"s1"` on an empty directory. -/
theorem saveLoad_roundtrip_witness :
    (SM.isBlank "s1" = false) ∧ (SM.sanitize "s1" = "s1") ∧
      (∃ s1 fs1, SM.saveSession c3wPrior [] "s1" = some (s1, fs1) ∧
        ∃ s2, SM.loadSession (SM.fresh 5 "w") fs1 "s1" = some (s2, true) ∧
          s2.conversationHistory = c3wPrior.conversationHistory ∧
          s2.sessionMetadata.messageCount = c3wPrior.sessionMetadata.messageCount) :=
  ⟨by decide, by decide,
    saveLoad_roundtrip c3wPrior [] "s1" 5 "w" (by decide) (Or.inl (by decide))⟩

/-- C4: starting from a fresh session and an empty save directory, after any
sequence of `addMessage` / `clearSession` / `saveSession` / `loadSession`
operations `sessionMetadata.messageCount` equals the history length; and a
sequence of `addMessage` calls from a fresh session yields exactly those
messages in call order with `messageCount` equal to the call count. -/
theorem messageCount_matches_history :
    (∀ (ops : List SM.Op) (t : ℕ) (sid : String),
      (ops.foldl SM.step (SM.fresh t sid, [])).1.sessionMetadata.messageCount
        = (ops.foldl SM.step (SM.fresh t sid, [])).1.conversationHistory.length)
    ∧ (∀ (adds : List (String × String × ℕ × String)) (t : ℕ) (sid : String),
      ((adds.map (fun a => SM.Op.add a.1 a.2.1 a.2.2.1 a.2.2.2)).foldl
          SM.step (SM.fresh t sid, [])).1.conversationHistory
        = adds.map SM.msgOf
      ∧ ((adds.map (fun a => SM.Op.add a.1 a.2.1 a.2.2.1 a.2.2.2)).foldl
          SM.step (SM.fresh t sid, [])).1.sessionMetadata.messageCount
        = adds.length) := by
  constructor
  · intro ops t sid
    refine (SM.invMC_foldl ops _ ⟨rfl, ?_⟩).1
    intro p hp
    exact absurd hp (List.not_mem_nil p)
  · intro adds t sid
    obtain ⟨h1, h2⟩ := SM.foldl_add_history adds (SM.fresh t sid, [])
    exact ⟨by simpa using h1, by simpa [SM.fresh] using h2⟩

/-- Prior in-memory session for the C5 witness/counterexample contexts. -/
def c5wState : SM.State := SM.fresh 7 "s0"

/-- A directory whose only file does not parse as JSON. -/
def c5wFS : SM.FS := [("x.json", SM.DiskFile.invalid)]

/-- C5 counterexample: a parsed file that has a `conversationHistory` array
but no `metadata` loads with `success = true`, yet the prior in-memory
metadata is retained (not replaced) — so a successful load is not a
wholesale replacement of the in-memory state. -/
theorem loadSession_success_keeps_old_metadata :
    SM.loadSession (SM.addMessage (SM.fresh 7 "sid") "user" "hi" 8 "m1")
        [("x.json", SM.DiskFile.parsed ⟨none, some []⟩)] "x"
      = some
          ({ conversationHistory := []
             currentSessionName := some "x"
             sessionMetadata := ⟨7, 8, 1, "sid", none, none⟩
             unsavedChanges := false
             autoSaveOnExit := false
             exitSaveInProgress := false }, true)
    ∧ (SM.addMessage (SM.fresh 7 "sid") "user" "hi" 8 "m1").sessionMetadata
        = ⟨7, 8, 1, "sid", none, none⟩ := by
  decide

/-- C5 (amended): a `loadSession` that returns `false` (no matching file,
unparseable JSON, or missing `conversationHistory` array) leaves the
in-memory state exactly as it was; on `true` the history and dirty flag are
replaced from the file, the metadata is replaced when the file has one and
otherwise retained, and the session name is taken from the file's
`metadata.sessionName` when present, else the requested name. -/
theorem loadSession_failure_atomic (s : SM.State) (fs : SM.FS) (name : String)
    (s' : SM.State) (b : Bool)
    (h : SM.loadSession s fs name = some (s', b)) :
    (b = false → s' = s)
    ∧ (b = true →
        ∃ f, SM.findSessionFile fs [name, SM.sanitize name] = some f ∧
          ∃ hist, f.conversationHistory = some hist ∧
            s'.conversationHistory = hist ∧
            s'.unsavedChanges = false ∧
            s'.sessionMetadata = f.metadata.getD s.sessionMetadata ∧
            s'.currentSessionName =
              some ((f.metadata.bind (fun m => m.sessionName)).getD name)) := by
  by_cases hb : SM.isBlank name
  · rw [SM.loadSession_of_blank hb] at h
    exact absurd h (by simp)
  · rw [Bool.not_eq_true] at hb
    cases hf : SM.findSessionFile fs [name, SM.sanitize name] with
    | none =>
      rw [SM.loadSession_of_notFound hb hf] at h
      obtain ⟨h1, h2⟩ := Prod.ext_iff.mp (Option.some.inj h)
      subst h1
      subst h2
      exact ⟨fun _ => rfl, fun htrue => by simp at htrue⟩
    | some f =>
      cases hch : f.conversationHistory with
      | none =>
        rw [SM.loadSession_of_badShape hb hf hch] at h
        obtain ⟨h1, h2⟩ := Prod.ext_iff.mp (Option.some.inj h)
        subst h1
        subst h2
        exact ⟨fun _ => rfl, fun htrue => by simp at htrue⟩
      | some hist =>
        rw [SM.loadSession_of_found hb hf hch] at h
        obtain ⟨h1, h2⟩ := Prod.ext_iff.mp (Option.some.inj h)
        subst h1
        subst h2
        exact ⟨fun hfalse => by simp at hfalse,
          fun _ => ⟨f, rfl, hist, hch, rfl, rfl, rfl, rfl⟩⟩

/-- Witness for C5: a load that fails to parse leaves the fresh state
untouched. -/
theorem loadSession_failure_atomic_witness :
    (SM.loadSession c5wState c5wFS "x" = some (c5wState, false))
    ∧ c5wState = c5wState :=
  ⟨by decide,
    (loadSession_failure_atomic c5wState c5wFS "x" c5wState false (by decide)).1 rfl⟩

/-- C6 counterexample: `addMessage` performs no role validation — the
invalid role `"banana"` is appended (count bumped, dirty flag set) instead
of raising. -/
theorem addMessage_accepts_invalid_role :
    SM.addMessage (SM.fresh 0 "sid") "banana" "hi" 3 "m1" =
      { conversationHistory := [⟨"banana", "hi", 3, "m1"⟩]
        currentSessionName := none
        sessionMetadata := ⟨0, 3, 1, "sid", none, none⟩
        unsavedChanges := true
        autoSaveOnExit := false
        exitSaveInProgress := false }
    ∧ ("banana" ≠ "user" ∧ "banana" ≠ "assistant") := by
  decide

/-- C6 (amended): `addMessage(role, content)` appends a message with the
generated id and timestamp, increments `messageCount` and marks the session
dirty, and it never fails — any role string, valid or not, is accepted. -/
theorem addMessage_appends_always (s : SM.State) (role content : String)
    (ts : ℕ) (mid : String) :
    (SM.addMessage s role content ts mid).conversationHistory
        = s.conversationHistory ++ [⟨role, content, ts, mid⟩]
    ∧ (SM.addMessage s role content ts mid).sessionMetadata.messageCount
        = s.sessionMetadata.messageCount + 1
    ∧ (SM.addMessage s role content ts mid).unsavedChanges = true :=
  ⟨rfl, rfl, rfl⟩

/-- Two-message history with one message at hour 1 and one at hour 2. -/
def c7History : List SM.Message :=
  [⟨"user", "x", 3600000, "m1"⟩, ⟨"user", "y", 7200000, "m2"⟩]

/-- C7 counterexample: hours 1 and 2 are tied with one message each, yet
`mostActiveHour` returns 2, the highest tied hour, not the lowest. -/
theorem mostActiveHour_tie_returns_highest :
    SM.mostActiveHour c7History = 2
    ∧ SM.hourCount c7History 1 = 1 ∧ SM.hourCount c7History 2 = 1 := by
  decide

/-- C7 (amended): for a non-empty history, `mostActiveHour` is an hour of
day (0-23) at which the most messages were recorded, and among hours tied
for the maximal count it is the highest (the `reduce` over ascending keys
replaces the accumulator on ties). -/
theorem mostActiveHour_max_highest_tie (history : List SM.Message)
    (hne : history ≠ []) :
    (∀ h : ℕ, SM.hourCount history h
        ≤ SM.hourCount history (SM.mostActiveHour history))
    ∧ (∀ h : ℕ, SM.hourCount history h
        = SM.hourCount history (SM.mostActiveHour history) →
        h ≤ SM.mostActiveHour history)
    ∧ SM.mostActiveHour history < 24 := by
  rw [SM.mostActiveHour_eq_pickMax]
  set cnt := SM.hourCount history with hcnt
  have hmemk : ∀ h : ℕ, 0 < cnt h → h ∈ SM.hourKeys history := by
    intro h hpos
    exact SM.mem_hourKeys.mpr ⟨SM.hourCount_pos_lt history h hpos, hpos⟩
  have hge : ∀ h : ℕ, cnt h ≤ cnt (SM.pickMax cnt 0 (SM.hourKeys history)) := by
    intro h
    by_cases hpos : 0 < cnt h
    · exact SM.pickMax_ge cnt (SM.hourKeys history) 0 h
        (List.mem_cons_of_mem _ (hmemk h hpos))
    · omega
  have hposmax : 0 < cnt (SM.pickMax cnt 0 (SM.hourKeys history)) := by
    obtain ⟨k, hk, hkpos⟩ := SM.hourKeys_ne_nil hne
    exact lt_of_lt_of_le hkpos
      (SM.pickMax_ge cnt (SM.hourKeys history) 0 k (List.mem_cons_of_mem _ hk))
  refine ⟨hge, ?_, ?_⟩
  · intro h heq
    have hpos : 0 < cnt h := by omega
    have hhk : h ∈ SM.hourKeys history := hmemk h hpos
    have hpw := SM.hourKeys_pairwise history
    cases hks : SM.hourKeys history with
    | nil => rw [hks] at hhk; exact absurd hhk (List.not_mem_nil _)
    | cons k0 rest =>
      rw [hks] at hhk heq hpw
      by_cases hk0 : k0 = 0
      · subst hk0
        have hfold : SM.pickMax cnt 0 (0 :: rest) = SM.pickMax cnt 0 rest := by
          rw [show SM.pickMax cnt 0 (0 :: rest)
            = SM.pickMax cnt (if cnt 0 > cnt 0 then 0 else 0) rest from rfl, ite_self]
        rw [hfold] at heq ⊢
        exact SM.pickMax_tie cnt rest 0 hpw h hhk heq
      · have hall : ∀ y ∈ k0 :: rest, 0 < y := by
          intro y hy
          rcases List.mem_cons.mp hy with rfl | hy'
          · omega
          · have := (List.pairwise_cons.mp hpw).1 y hy'
            omega
        have hpw0 : (0 :: k0 :: rest).Pairwise (· < ·) :=
          List.pairwise_cons.mpr ⟨hall, hpw⟩
        exact SM.pickMax_tie cnt (k0 :: rest) 0 hpw0 h
          (List.mem_cons_of_mem _ hhk) heq
  · have hmem := SM.pickMax_mem cnt (SM.hourKeys history) 0
    rcases List.mem_cons.mp hmem with h' | h'
    · omega
    · exact (SM.mem_hourKeys.mp h').1

/-- Witness for C7: the amended tie-breaking law applied to the concrete
two-message history. -/
theorem mostActiveHour_max_highest_tie_witness :
    (c7History ≠ [])
    ∧ ((∀ h : ℕ, SM.hourCount c7History h
          ≤ SM.hourCount c7History (SM.mostActiveHour c7History))
      ∧ (∀ h : ℕ, SM.hourCount c7History h
          = SM.hourCount c7History (SM.mostActiveHour c7History) →
          h ≤ SM.mostActiveHour c7History)
      ∧ SM.mostActiveHour c7History < 24) :=
  ⟨by decide, mostActiveHour_max_highest_tie c7History (by decide)⟩

/-- A dirty autosave-enabled session with one message, used to exercise the
exit-save path. -/
def c8State : SM.State :=
  { SM.fresh 0 "sid" with
    autoSaveOnExit := true
    conversationHistory := [⟨"user", "x", 5, "m"⟩] }

/-- C8 counterexample: the `finally` clause clears `exitSaveInProgress`, so
two consecutive `saveOnExit` invocations in the same run both perform a
save — the guard is not one-shot (the directory receives two writes). -/
theorem saveOnExit_saves_twice :
    (SM.saveOnExit c8State [] 7).2.2 = true
    ∧ (SM.saveOnExit (SM.saveOnExit c8State [] 7).1
        (SM.saveOnExit c8State [] 7).2.1 9).2.2 = true
    ∧ ((SM.saveOnExit (SM.saveOnExit c8State [] 7).1
        (SM.saveOnExit c8State [] 7).2.1 9).2.1).length = 2 := by
  decide

/-- C8 (amended): the `exitSaveInProgress` flag only suppresses an exit save
while another one is in progress — an invocation with the flag set performs
no save and changes nothing, and every completed invocation leaves the flag
cleared again (so a later, sequential exit signal saves again). -/
theorem saveOnExit_guard_in_progress_only (s : SM.State) (fs : SM.FS)
    (now : ℕ) :
    (s.exitSaveInProgress = true → SM.saveOnExit s fs now = (s, fs, false))
    ∧ (s.exitSaveInProgress = false →
        (SM.saveOnExit s fs now).1.exitSaveInProgress = false) := by
  constructor
  · intro h
    simp [SM.saveOnExit, h]
  · intro h
    rw [SM.saveOnExit]
    split
    · exact h
    · split
      · exact h
      · split
        · exact h
        · dsimp only
          split
          · rfl
          · rfl

/-- A state whose exit-save flag is already set. -/
def c8Flagged : SM.State := { SM.fresh 0 "sid" with exitSaveInProgress := true }

/-- Witness for C8: a `saveOnExit` issued while the flag is set is a no-op
returning `false`. -/
theorem saveOnExit_guard_in_progress_only_witness :
    (c8Flagged.exitSaveInProgress = true)
    ∧ SM.saveOnExit c8Flagged [] 3 = (c8Flagged, [], false) :=
  ⟨rfl, (saveOnExit_guard_in_progress_only c8Flagged [] 3).1 rfl⟩

namespace PVS

theorem any_key_iff {β : Type} (l : List (String × β)) (k : String) :
    l.any (fun e => e.1 = k) = true ↔ k ∈ l.map Prod.fst := by
  simp [List.any_eq_true, List.mem_map]

theorem mapSet_length {β : Type} (l : List (String × β)) (k : String) (v : β) :
    (mapSet l k v).length =
      if k ∈ l.map Prod.fst then l.length else l.length + 1 := by
  rw [mapSet]
  by_cases hk : k ∈ l.map Prod.fst
  · rw [if_pos ((any_key_iff l k).mpr hk), if_pos hk, List.length_map]
  · rw [if_neg (fun hc => hk ((any_key_iff l k).mp hc)), if_neg hk,
      List.length_append, List.length_singleton]

end PVS

/-- C2: `PersistentVectorStore.store` performs no dimension validation — on
a store holding the 2-dimensional vector `"a"`, storing the 3-dimensional
vector `"b"` succeeds (`true`) and leaves a mixed-dimension store, instead
of rejecting with a `ValidationError` as the spec mandates. -/
theorem store_accepts_dimension_mismatch :
    (PVS.store (PVS.store PVS.emptyStore "a" [1, 2] 0).1 "b" [1, 2, 3] 1).2 = true
    ∧ (PVS.store (PVS.store PVS.emptyStore "a" [1, 2] 0).1 "b" [1, 2, 3] 1).1.entries
        = [("a", [1, 2]), ("b", [1, 2, 3])]
    ∧ (PVS.store (PVS.store PVS.emptyStore "a" [1, 2] 0).1 "b" [1, 2, 3] 1).1.metadata
        = [("a", ⟨0, 2⟩), ("b", ⟨1, 3⟩)] := by
  decide

/-- Fold a sequence of `store` calls (all at timestamp 0). -/
def storeSeq (st : PVS.Store) (l : List (String × List ℚ)) : PVS.Store :=
  l.foldl (fun s e => (PVS.store s e.1 e.2 0).1) st

/-- Ten store calls of which the tenth overwrites an existing id. -/
def c9Calls : List (String × List ℚ) :=
  [("a1", [1]), ("a2", [1]), ("a3", [1]), ("a4", [1]), ("a5", [1]),
    ("a6", [1]), ("a7", [1]), ("a8", [1]), ("a9", [1]), ("a9", [2])]

/-- C9 counterexample: after ten successful `store` calls of which the last
overwrites an existing id, the map holds 9 ids and no flush has happened —
the flush counter is the map size, not the number of successful inserts. -/
theorem store_ten_calls_with_overwrite_no_flush :
    (storeSeq PVS.emptyStore c9Calls).saveCount = 0
    ∧ (storeSeq PVS.emptyStore c9Calls).entries.length = 9 := by
  decide

/-- C9 (amended): every `store` call succeeds; it grows the map by one id
unless the id already existed (overwrite), and the whole store is flushed
exactly when the number of distinct ids after the upsert is divisible
by 10. -/
theorem store_flush_iff_size_multiple_of_ten (st : PVS.Store) (id : String)
    (v : List ℚ) (ts : ℕ) :
    (PVS.store st id v ts).2 = true
    ∧ (PVS.store st id v ts).1.entries.length =
        (if id ∈ st.entries.map Prod.fst
          then st.entries.length else st.entries.length + 1)
    ∧ (PVS.store st id v ts).1.saveCount =
        st.saveCount +
          (if (PVS.store st id v ts).1.entries.length % 10 = 0 then 1 else 0) :=
  ⟨rfl, PVS.mapSet_length st.entries id v, rfl⟩

/-- C10: `delete(id)` reports `true` (and flushes) exactly when the id was
present in both maps; when the id is only in the vector map (as a `load` of
a file with missing per-id metadata produces), the embedding is removed but
the call returns `false` and performs no flush. -/
theorem delete_requires_both_maps (st : PVS.Store) (id : String) :
    ((PVS.delete st id).2 = true ↔
      id ∈ st.entries.map Prod.fst ∧ id ∈ st.metadata.map Prod.fst)
    ∧ (id ∈ st.entries.map Prod.fst → id ∉ st.metadata.map Prod.fst →
        PVS.delete st id =
          (⟨PVS.mapErase st.entries id, st.metadata, st.saveCount⟩, false))
    ∧ (id ∈ st.entries.map Prod.fst → id ∈ st.metadata.map Prod.fst →
        PVS.delete st id =
          (⟨PVS.mapErase st.entries id, PVS.mapErase st.metadata id,
            st.saveCount + 1⟩, true)) := by
  by_cases h1 : id ∈ st.entries.map Prod.fst
  · have b1 : st.entries.any (fun e => e.1 = id) = true :=
      (PVS.any_key_iff st.entries id).mpr h1
    by_cases h2 : id ∈ st.metadata.map Prod.fst
    · have b2 : st.metadata.any (fun e => e.1 = id) = true :=
        (PVS.any_key_iff st.metadata id).mpr h2
      refine ⟨?_, fun _ hc => absurd h2 hc, fun _ _ => ?_⟩
      · simp [PVS.delete, b1, b2, h1, h2]
      · simp [PVS.delete, b1, b2]
    · have b2 : ¬ st.metadata.any (fun e => e.1 = id) = true :=
        fun hc => h2 ((PVS.any_key_iff st.metadata id).mp hc)
      refine ⟨?_, fun _ _ => ?_, fun _ hc => absurd hc h2⟩
      · simp [PVS.delete, b1, b2, h2]
      · simp [PVS.delete, b1, b2]
  · have b1 : ¬ st.entries.any (fun e => e.1 = id) = true :=
      fun hc => h1 ((PVS.any_key_iff st.entries id).mp hc)
    refine ⟨?_, fun hc => absurd hc h1, fun hc => absurd hc h1⟩
    simp [PVS.delete, b1, h1]

/-- The store produced by loading a persisted file whose `vectors` object
has the id `"a"` but whose `metadata` object is empty. -/
def c10Loaded : PVS.Store := PVS.loadStore [("a", [1])] []

/-- Witness for C10: on the loaded store with orphan vector `"a"`, `delete`
removes the embedding, returns `false`, and does not flush. -/
theorem delete_requires_both_maps_witness :
    ("a" ∈ c10Loaded.entries.map Prod.fst)
    ∧ ("a" ∉ c10Loaded.metadata.map Prod.fst)
    ∧ PVS.delete c10Loaded "a" =
        (⟨PVS.mapErase c10Loaded.entries "a", c10Loaded.metadata,
          c10Loaded.saveCount⟩, false) :=
  ⟨by decide, by decide,
    (delete_requires_both_maps c10Loaded "a").2.1 (by decide) (by decide)⟩

namespace PVS

/-- Annotate list elements with their positions, starting at `n`: the
original insertion indexes used to reason about sort stability. -/
def annot (n : ℕ) : List α → List (ℕ × α)
  | [] => []
  | x :: xs => (n, x) :: annot (n + 1) xs

theorem annot_map_snd (n : ℕ) : ∀ l : List α, (annot n l).map Prod.snd = l
  | [] => rfl
  | x :: xs => by rw [annot, List.map_cons, annot_map_snd (n + 1) xs]

theorem annot_length (n : ℕ) : ∀ l : List α, (annot n l).length = l.length
  | [] => rfl
  | x :: xs => by rw [annot, List.length_cons, annot_length (n + 1) xs, List.length_cons]

theorem mem_annot {l : List α} :
    ∀ {n : ℕ} {p : ℕ × α}, p ∈ annot n l →
      n ≤ p.1 ∧ l.get? (p.1 - n) = some p.2 := by
  induction l with
  | nil => intro n p hp; simp [annot] at hp
  | cons x xs ih =>
    intro n p hp
    rw [annot] at hp
    rcases List.mem_cons.mp hp with rfl | hp'
    · simp
    · obtain ⟨h1, h2⟩ := ih hp'
      refine ⟨by omega, ?_⟩
      have : p.1 - n = (p.1 - (n + 1)) + 1 := by omega
      rw [this]
      simpa using h2

theorem annot_mem_of_get? {l : List α} :
    ∀ {n i : ℕ} {x : α}, l.get? i = some x → (n + i, x) ∈ annot n l := by
  induction l with
  | nil => intro n i x h; simp at h
  | cons y ys ih =>
    intro n i x h
    cases i with
    | zero =>
      rw [List.get?] at h
      cases h
      simp [annot]
    | succ j =>
      rw [List.get?] at h
      rw [annot]
      have hrec : (n + 1 + j, x) ∈ annot (n + 1) ys := ih h
      refine List.mem_cons_of_mem _ ?_
      have harith : n + 1 + j = n + (j + 1) := by omega
      rwa [harith] at hrec

theorem annot_idx_lt {l : List α} :
    ∀ {n : ℕ}, (annot n l).Pairwise (fun a b => a.1 < b.1) := by
  induction l with
  | nil => intro n; simp [annot]
  | cons x xs ih =>
    intro n
    rw [annot]
    refine List.pairwise_cons.mpr ⟨?_, ih⟩
    intro p hp
    have := (mem_annot hp).1
    omega

theorem insertDesc_map_snd (gt : α → α → Bool) (x : ℕ × α) :
    ∀ acc : List (ℕ × α),
      (insertDesc (fun a b => gt a.2 b.2) x acc).map Prod.snd
        = insertDesc gt x.2 (acc.map Prod.snd)
  | [] => rfl
  | y :: ys => by
    rw [insertDesc, List.map_cons, insertDesc]
    by_cases hg : gt x.2 y.2
    · rw [if_pos hg, if_pos hg, List.map_cons, List.map_cons]
    · rw [if_neg hg, if_neg hg, List.map_cons, insertDesc_map_snd gt x ys]

theorem foldl_insert_map_snd (gt : α → α → Bool) :
    ∀ (rest : List (ℕ × α)) (acc : List (ℕ × α)),
      (rest.foldl (fun ac x => insertDesc (fun a b => gt a.2 b.2) x ac) acc).map Prod.snd
        = (rest.map Prod.snd).foldl (fun ac x => insertDesc gt x ac) (acc.map Prod.snd)
  | [], acc => rfl
  | x :: xs, acc => by
    rw [List.foldl_cons, List.map_cons, List.foldl_cons,
      foldl_insert_map_snd gt xs, insertDesc_map_snd]

theorem stableSortDesc_eq_annot (gt : α → α → Bool) (l : List α) :
    stableSortDesc gt l
      = (stableSortDesc (fun a b => gt a.2 b.2) (annot 0 l)).map Prod.snd := by
  rw [stableSortDesc, stableSortDesc, foldl_insert_map_snd, annot_map_snd]
  rfl

end PVS

namespace PVS

/-- Strict lexicographic order on annotated elements: strictly larger key,
or equal key and smaller original index. The stable descending sort arranges
the annotated list exactly in this order. -/
def SLexP (K : α → ℝ) (a b : ℕ × α) : Prop :=
  K b.2 < K a.2 ∨ (K a.2 = K b.2 ∧ a.1 < b.1)

theorem insertDesc_pairwise_perm (gt : α → α → Bool) (K : α → ℝ) (x : ℕ × α) :
    ∀ acc : List (ℕ × α),
      (∀ a b : ℕ × α, a ∈ x :: acc → b ∈ x :: acc →
        (gt a.2 b.2 = true ↔ K b.2 < K a.2)) →
      acc.Pairwise (SLexP K) →
      (∀ a ∈ acc, a.1 < x.1) →
      (insertDesc (fun a b => gt a.2 b.2) x acc).Pairwise (SLexP K)
      ∧ (insertDesc (fun a b => gt a.2 b.2) x acc).Perm (x :: acc) := by
  intro acc
  induction acc with
  | nil =>
    intro _ _ _
    exact ⟨List.pairwise_singleton _ _, List.Perm.refl _⟩
  | cons y ys ih =>
    intro Hgt hpw hidx
    rw [insertDesc]
    have Hxy := Hgt x y (List.mem_cons_self _ _)
      (List.mem_cons_of_mem _ (List.mem_cons_self _ _))
    obtain ⟨hhead, htail⟩ := List.pairwise_cons.mp hpw
    by_cases hg : gt x.2 y.2
    · rw [if_pos hg]
      have hKxy : K y.2 < K x.2 := Hxy.mp hg
      refine ⟨List.pairwise_cons.mpr ⟨?_, hpw⟩, List.Perm.refl _⟩
      intro z hz
      rcases List.mem_cons.mp hz with rfl | hz'
      · exact Or.inl hKxy
      · refine Or.inl (lt_of_le_of_lt ?_ hKxy)
        rcases hhead z hz' with h' | ⟨h', _⟩
        · exact le_of_lt h'
        · exact le_of_eq h'.symm
    · rw [if_neg hg]
      have hKxy' : K x.2 ≤ K y.2 := le_of_not_lt (fun hc => hg (Hxy.mpr hc))
      have Hgt' : ∀ a b : ℕ × α, a ∈ x :: ys → b ∈ x :: ys →
          (gt a.2 b.2 = true ↔ K b.2 < K a.2) := by
        intro a b ha hb
        have lift : ∀ c : ℕ × α, c ∈ x :: ys → c ∈ x :: y :: ys := by
          intro c hc
          rcases List.mem_cons.mp hc with rfl | hc'
          · exact List.mem_cons_self _ _
          · exact List.mem_cons_of_mem _ (List.mem_cons_of_mem _ hc')
        exact Hgt a b (lift a ha) (lift b hb)
      obtain ⟨hpw_ins, hperm_ins⟩ := ih Hgt' htail
        (fun a ha => hidx a (List.mem_cons_of_mem _ ha))
      refine ⟨List.pairwise_cons.mpr ⟨?_, hpw_ins⟩, ?_⟩
      · intro z hz
        have hz' : z ∈ x :: ys := hperm_ins.mem_iff.mp hz
        rcases List.mem_cons.mp hz' with rfl | hz''
        · rcases lt_or_eq_of_le hKxy' with h' | h'
          · exact Or.inl h'
          · exact Or.inr ⟨h'.symm, hidx y (List.mem_cons_self _ _)⟩
        · exact hhead z hz''
      · exact (hperm_ins.cons y).trans (List.Perm.swap x y ys)

theorem sortFold_pairwise_perm (gt : α → α → Bool) (K : α → ℝ) :
    ∀ (rest acc : List (ℕ × α)),
      (∀ a b : ℕ × α, a ∈ acc ++ rest → b ∈ acc ++ rest →
        (gt a.2 b.2 = true ↔ K b.2 < K a.2)) →
      acc.Pairwise (SLexP K) →
      (∀ a ∈ acc, ∀ b ∈ rest, a.1 < b.1) →
      rest.Pairwise (fun a b => a.1 < b.1) →
      (rest.foldl (fun ac x => insertDesc (fun a b => gt a.2 b.2) x ac) acc).Pairwise (SLexP K)
      ∧ (rest.foldl (fun ac x => insertDesc (fun a b => gt a.2 b.2) x ac) acc).Perm
          (acc ++ rest) := by
  intro rest
  induction rest with
  | nil =>
    intro acc _ hpw _ _
    rw [List.foldl_nil, List.append_nil]
    exact ⟨hpw, List.Perm.refl _⟩
  | cons x t ih =>
    intro acc Hgt hpw hcross hrest
    rw [List.foldl_cons]
    have Hgt₀ : ∀ a b : ℕ × α, a ∈ x :: acc → b ∈ x :: acc →
        (gt a.2 b.2 = true ↔ K b.2 < K a.2) := by
      intro a b ha hb
      have lift : ∀ c : ℕ × α, c ∈ x :: acc → c ∈ acc ++ x :: t := by
        intro c hc
        rcases List.mem_cons.mp hc with rfl | hc'
        · exact List.mem_append_right _ (List.mem_cons_self _ _)
        · exact List.mem_append_left _ hc'
      exact Hgt a b (lift a ha) (lift b hb)
    obtain ⟨hpw1, hperm1⟩ := insertDesc_pairwise_perm gt K x acc Hgt₀ hpw
      (fun a ha => hcross a ha x (List.mem_cons_self _ _))
    obtain ⟨hheadrest, htailrest⟩ := List.pairwise_cons.mp hrest
    have hmem1 : ∀ c : ℕ × α,
        c ∈ insertDesc (fun a b => gt a.2 b.2) x acc ↔ c ∈ x :: acc :=
      fun c => hperm1.mem_iff
    obtain ⟨hpw2, hperm2⟩ := ih (insertDesc (fun a b => gt a.2 b.2) x acc)
      (by
        intro a b ha hb
        have lift : ∀ c : ℕ × α,
            c ∈ insertDesc (fun a b => gt a.2 b.2) x acc ++ t →
              c ∈ acc ++ x :: t := by
          intro c hc
          rcases List.mem_append.mp hc with hc' | hc'
          · rcases List.mem_cons.mp ((hmem1 c).mp hc') with rfl | hc''
            · exact List.mem_append_right _ (List.mem_cons_self _ _)
            · exact List.mem_append_left _ hc''
          · exact List.mem_append_right _ (List.mem_cons_of_mem _ hc')
        exact Hgt a b (lift a ha) (lift b hb))
      hpw1
      (by
        intro a ha b hb
        rcases List.mem_cons.mp ((hmem1 a).mp ha) with rfl | ha'
        · exact hheadrest b hb
        · exact hcross a ha' b (List.mem_cons_of_mem _ hb))
      htailrest
    exact ⟨hpw2,
      hperm2.trans ((hperm1.append_right t).trans List.perm_middle.symm)⟩

end PVS

namespace PVS

/-- The similarity value a represented pair stands for: `x / √s`. For a
fixed query this is the cosine similarity scaled by the positive constant
`√(sqMag q)`, which does not change any comparison. -/
noncomputable def tval (p : ℚ × ℚ) : ℝ :=
  (p.1 : ℝ) / Real.sqrt ((p.2 : ℝ))

theorem simGtB_iff (x1 s1 x2 s2 : ℚ) (h1 : 0 < s1) (h2 : 0 < s2) :
    simGtB (x1, s1) (x2, s2) = true ↔ tval (x2, s2) < tval (x1, s1) := by
  have hs1R : (0 : ℝ) < (s1 : ℝ) := by exact_mod_cast h1
  have hs2R : (0 : ℝ) < (s2 : ℝ) := by exact_mod_cast h2
  have hr1 : 0 < Real.sqrt (s1 : ℝ) := Real.sqrt_pos.mpr hs1R
  have hr2 : 0 < Real.sqrt (s2 : ℝ) := Real.sqrt_pos.mpr hs2R
  have hr1sq : Real.sqrt (s1 : ℝ) ^ 2 = (s1 : ℝ) := Real.sq_sqrt (le_of_lt hs1R)
  have hr2sq : Real.sqrt (s2 : ℝ) ^ 2 = (s2 : ℝ) := Real.sq_sqrt (le_of_lt hs2R)
  by_cases hx1 : 0 < x1
  · by_cases hx2 : 0 < x2
    · have hx1R : (0 : ℝ) < (x1 : ℝ) := by exact_mod_cast hx1
      have hx2R : (0 : ℝ) < (x2 : ℝ) := by exact_mod_cast hx2
      simp only [simGtB, if_pos hx1, if_pos hx2, decide_eq_true_eq, tval]
      rw [div_lt_div_iff₀ hr2 hr1]
      constructor
      · intro h
        have hR : (x2 : ℝ) * (x2 : ℝ) * (s1 : ℝ) < (x1 : ℝ) * (x1 : ℝ) * (s2 : ℝ) := by
          exact_mod_cast h
        rw [← hr1sq, ← hr2sq] at hR
        nlinarith [mul_pos hx2R hr1, mul_pos hx1R hr2, hR]
      · intro h
        have hsq := mul_self_lt_mul_self (le_of_lt (mul_pos hx2R hr1)) h
        have hR : (x2 : ℝ) * (x2 : ℝ) * (s1 : ℝ) < (x1 : ℝ) * (x1 : ℝ) * (s2 : ℝ) := by
          rw [← hr1sq, ← hr2sq]
          nlinarith [hsq]
        exact_mod_cast hR
    · have hx1R : (0 : ℝ) < (x1 : ℝ) := by exact_mod_cast hx1
      have hx2R : (x2 : ℝ) ≤ 0 := by exact_mod_cast le_of_not_lt hx2
      simp only [simGtB, if_pos hx1, if_neg hx2, tval]
      have hL : (x2 : ℝ) / Real.sqrt (s2 : ℝ) ≤ 0 :=
        div_nonpos_of_nonpos_of_nonneg hx2R (Real.sqrt_nonneg _)
      have hR : 0 < (x1 : ℝ) / Real.sqrt (s1 : ℝ) := div_pos hx1R hr1
      simp [lt_of_le_of_lt hL hR]
  · by_cases hx2 : 0 ≤ x2
    · have hx1R : (x1 : ℝ) ≤ 0 := by exact_mod_cast le_of_not_lt hx1
      have hx2R : (0 : ℝ) ≤ (x2 : ℝ) := by exact_mod_cast hx2
      simp only [simGtB, if_neg hx1, if_pos hx2, tval]
      have hL : (x1 : ℝ) / Real.sqrt (s1 : ℝ) ≤ 0 :=
        div_nonpos_of_nonpos_of_nonneg hx1R (Real.sqrt_nonneg _)
      have hR : 0 ≤ (x2 : ℝ) / Real.sqrt (s2 : ℝ) :=
        div_nonneg hx2R (Real.sqrt_nonneg _)
      simp [not_lt.mpr (le_trans hL hR)]
    · have hx1R : (x1 : ℝ) ≤ 0 := by exact_mod_cast le_of_not_lt hx1
      have hx2R : (x2 : ℝ) < 0 := by exact_mod_cast lt_of_not_le hx2
      simp only [simGtB, if_neg hx1, if_neg hx2, decide_eq_true_eq, tval]
      rw [div_lt_div_iff₀ hr2 hr1]
      constructor
      · intro h
        have hR : (x1 : ℝ) * (x1 : ℝ) * (s2 : ℝ) < (x2 : ℝ) * (x2 : ℝ) * (s1 : ℝ) := by
          exact_mod_cast h
        rw [← hr1sq, ← hr2sq] at hR
        nlinarith [mul_pos (neg_pos.mpr hx2R) hr1,
          mul_nonneg (neg_nonneg.mpr hx1R) (le_of_lt hr2), hR]
      · intro h
        have hu : 0 ≤ -((x1 : ℝ) * Real.sqrt (s2 : ℝ)) :=
          neg_nonneg.mpr (mul_nonpos_of_nonpos_of_nonneg hx1R (Real.sqrt_nonneg _))
        have hv : -((x1 : ℝ) * Real.sqrt (s2 : ℝ)) < -((x2 : ℝ) * Real.sqrt (s1 : ℝ)) := by
          exact neg_lt_neg h
        have hsq := mul_self_lt_mul_self hu hv
        have hR : (x1 : ℝ) * (x1 : ℝ) * (s2 : ℝ) < (x2 : ℝ) * (x2 : ℝ) * (s1 : ℝ) := by
          rw [← hr1sq, ← hr2sq]
          nlinarith [hsq]
        exact_mod_cast hR

theorem cosineSimilarity_eq_tval (q v : List ℚ) :
    cosineSimilarity q v = tval (simRep q v) / Real.sqrt ((sqMag q : ℝ)) := by
  rw [cosineSimilarity, tval, simRep, div_div, mul_comm]

theorem cos_lt_iff (q a b : List ℚ) (hq : 0 < sqMag q) :
    cosineSimilarity q a < cosineSimilarity q b ↔
      tval (simRep q a) < tval (simRep q b) := by
  rw [cosineSimilarity_eq_tval, cosineSimilarity_eq_tval,
    div_lt_div_iff_of_pos_right (Real.sqrt_pos.mpr (by exact_mod_cast hq))]

theorem cos_eq_iff (q a b : List ℚ) (hq : 0 < sqMag q) :
    cosineSimilarity q a = cosineSimilarity q b ↔
      tval (simRep q a) = tval (simRep q b) := by
  rw [cosineSimilarity_eq_tval, cosineSimilarity_eq_tval]
  have hne : Real.sqrt ((sqMag q : ℝ)) ≠ 0 :=
    ne_of_gt (Real.sqrt_pos.mpr (by exact_mod_cast hq))
  rw [div_eq_div_iff hne hne]
  exact ⟨fun h => mul_right_cancel₀ hne h, fun h => by rw [h]⟩

end PVS

namespace PVS

theorem indexOf_of_get? {l : List String} :
    ∀ {i : ℕ} {a : String}, l.Nodup → l.get? i = some a → l.indexOf a = i := by
  induction l with
  | nil => intro i a _ hg; simp at hg
  | cons x t ih =>
    intro i a hnd hg
    cases i with
    | zero =>
      rw [List.get?] at hg
      cases hg
      exact List.indexOf_cons_self _ _
    | succ j =>
      rw [List.get?] at hg
      have hmem : a ∈ t := List.get?_mem hg
      have hne : x ≠ a := by
        intro hc
        subst hc
        exact (List.nodup_cons.mp hnd).1 hmem
      rw [List.indexOf_cons_ne _ hne, ih (List.nodup_cons.mp hnd).2 hg]

theorem lookup_of_get? {β : Type} {l : List (String × β)} :
    ∀ {i : ℕ} {e : String × β}, (l.map Prod.fst).Nodup → l.get? i = some e →
      l.lookup e.1 = some e.2 := by
  induction l with
  | nil => intro i e _ hg; simp at hg
  | cons x t ih =>
    intro i e hnd hg
    cases i with
    | zero =>
      rw [List.get?] at hg
      cases hg
      rw [show x = (x.1, x.2) from rfl, List.lookup_cons, beq_self_eq_true]
    | succ j =>
      rw [List.get?] at hg
      have hmem : e.1 ∈ t.map Prod.fst :=
        List.mem_map.mpr ⟨e, List.get?_mem hg, rfl⟩
      have hne : (e.1 == x.1) = false := by
        refine beq_false_of_ne (fun hc => ?_)
        rw [List.map_cons, List.nodup_cons] at hnd
        exact hnd.1 (hc ▸ hmem)
      rw [show x = (x.1, x.2) from rfl, List.lookup_cons, hne]
      exact ih (by rw [List.map_cons, List.nodup_cons] at hnd; exact hnd.2) hg

end PVS

namespace PVS

theorem stableSortDesc_spec (gt : α → α → Bool) (K : α → ℝ) (l : List α)
    (HK : ∀ a b : α, a ∈ l → b ∈ l → (gt a b = true ↔ K b < K a)) :
    ∃ AL : List (ℕ × α),
      stableSortDesc gt l = AL.map Prod.snd ∧
      AL.Perm (annot 0 l) ∧ AL.Pairwise (SLexP K) := by
  have Hmem : ∀ p : ℕ × α, p ∈ annot 0 l → p.2 ∈ l := by
    intro p hp
    have h2 := (mem_annot hp).2
    rw [Nat.sub_zero] at h2
    exact List.get?_mem h2
  obtain ⟨hpw, hperm⟩ := sortFold_pairwise_perm gt K (annot 0 l) []
    (by
      intro a b ha hb
      rw [List.nil_append] at ha hb
      exact HK a.2 b.2 (Hmem a ha) (Hmem b hb))
    List.Pairwise.nil
    (by intro a ha; exact absurd ha (List.not_mem_nil a))
    annot_idx_lt
  exact ⟨stableSortDesc (fun a b => gt a.2 b.2) (annot 0 l),
    stableSortDesc_eq_annot gt l, by simpa using hperm, hpw⟩

end PVS

/-- C1: for a store with distinct ids (a `Map` invariant) and nonzero
embeddings and query (so every cosine similarity is defined),
`search(queryVector, k)` returns the ids of the `min(k, n)` stored
embeddings with the highest cosine similarity to the query — fewer than `k`
when the store holds fewer, none when it is empty — ordered by strictly
decreasing similarity except that ties keep the original insertion order,
and every returned id beats (or ties with an earlier insertion index) every
id that is not returned. -/
theorem search_returns_topk_by_cosine (st : PVS.Store) (q : List ℚ) (k : ℕ)
    (hk : 0 < k)
    (hnd : (st.entries.map Prod.fst).Nodup)
    (hq : 0 < PVS.sqMag q)
    (hdim : ∀ e ∈ st.entries, e.2.length = q.length)
    (hv : ∀ e ∈ st.entries, 0 < PVS.sqMag e.2) :
    (PVS.search st q k).length = min k st.entries.length
    ∧ (st.entries = [] → PVS.search st q k = [])
    ∧ (∀ id ∈ PVS.search st q k, id ∈ st.entries.map Prod.fst)
    ∧ (PVS.search st q k).Nodup
    ∧ (PVS.search st q k).Pairwise (fun a b =>
        PVS.cosineSimilarity q (PVS.vecOf st b)
            < PVS.cosineSimilarity q (PVS.vecOf st a)
        ∨ (PVS.cosineSimilarity q (PVS.vecOf st a)
              = PVS.cosineSimilarity q (PVS.vecOf st b)
            ∧ PVS.idxOf st a < PVS.idxOf st b))
    ∧ (∀ a ∈ PVS.search st q k, ∀ b ∈ st.entries.map Prod.fst,
        b ∉ PVS.search st q k →
        PVS.cosineSimilarity q (PVS.vecOf st b)
            < PVS.cosineSimilarity q (PVS.vecOf st a)
        ∨ (PVS.cosineSimilarity q (PVS.vecOf st a)
              = PVS.cosineSimilarity q (PVS.vecOf st b)
            ∧ PVS.idxOf st a < PVS.idxOf st b)) := by
  obtain ⟨AL, hALeq, hPerm, hPW⟩ :=
    PVS.stableSortDesc_spec (fun a b => PVS.simGtB a.2 b.2)
      (fun e => PVS.tval e.2)
      (st.entries.map (fun e => (e.1, PVS.simRep q e.2)))
      (by
        intro a b ha hb
        obtain ⟨ea, hea, rfl⟩ := List.mem_map.mp ha
        obtain ⟨eb, heb, rfl⟩ := List.mem_map.mp hb
        exact PVS.simGtB_iff (PVS.dotProd q ea.2) (PVS.sqMag ea.2)
          (PVS.dotProd q eb.2) (PVS.sqMag eb.2) (hv ea hea) (hv eb heb))
  have hsearch : PVS.search st q k = ((AL.map Prod.snd).take k).map Prod.fst := by
    rw [PVS.search]
    rw [hALeq]
  have hres : PVS.search st q k = (AL.take k).map (fun p => p.2.1) := by
    rw [hsearch, ← List.map_take, List.map_map]
    rfl
  have hALlen : AL.length = st.entries.length := by
    rw [hPerm.length_eq, PVS.annot_length, List.length_map]
  have Hpair : ∀ p ∈ AL, ∃ e : String × List ℚ,
      st.entries.get? p.1 = some e ∧ p.2 = (e.1, PVS.simRep q e.2) := by
    intro p hp
    have hpal := hPerm.mem_iff.mp hp
    have h2 := (PVS.mem_annot hpal).2
    rw [Nat.sub_zero, List.get?_map] at h2
    cases he : st.entries.get? p.1 with
    | none => rw [he] at h2; simp at h2
    | some e =>
      rw [he] at h2
      simp only [Option.map_some'] at h2
      exact ⟨e, rfl, (Option.some.inj h2).symm⟩
  have Hvec : ∀ (e : String × List ℚ) (i : ℕ),
      st.entries.get? i = some e → PVS.vecOf st e.1 = e.2 := by
    intro e i hget
    rw [PVS.vecOf, PVS.lookup_of_get? hnd hget]
    rfl
  have Hidx : ∀ (e : String × List ℚ) (i : ℕ),
      st.entries.get? i = some e → PVS.idxOf st e.1 = i := by
    intro e i hget
    rw [PVS.idxOf]
    refine PVS.indexOf_of_get? hnd ?_
    rw [List.get?_map, hget]
    rfl
  have Htrans : ∀ p p' : ℕ × (String × (ℚ × ℚ)), p ∈ AL → p' ∈ AL →
      PVS.SLexP (fun e => PVS.tval e.2) p p' →
      (PVS.cosineSimilarity q (PVS.vecOf st p'.2.1)
          < PVS.cosineSimilarity q (PVS.vecOf st p.2.1)
        ∨ (PVS.cosineSimilarity q (PVS.vecOf st p.2.1)
              = PVS.cosineSimilarity q (PVS.vecOf st p'.2.1)
            ∧ PVS.idxOf st p.2.1 < PVS.idxOf st p'.2.1)) := by
    intro p p' hp hp' hS
    obtain ⟨e, hget, hsnd⟩ := Hpair p hp
    obtain ⟨e', hget', hsnd'⟩ := Hpair p' hp'
    rw [hsnd, hsnd', Hvec e p.1 hget, Hvec e' p'.1 hget',
      Hidx e p.1 hget, Hidx e' p'.1 hget']
    rcases hS with h | ⟨h, hidx⟩
    · rw [hsnd, hsnd'] at h
      exact Or.inl ((PVS.cos_lt_iff q e'.2 e.2 hq).mpr h)
    · rw [hsnd, hsnd'] at h
      exact Or.inr ⟨(PVS.cos_eq_iff q e.2 e'.2 hq).mpr h, hidx⟩
  have hids_perm : (AL.map (fun p => p.2.1)).Perm (st.entries.map Prod.fst) := by
    have h1 := hPerm.map (fun p : ℕ × (String × (ℚ × ℚ)) => p.2.1)
    have h2 : (PVS.annot 0 (st.entries.map (fun e => (e.1, PVS.simRep q e.2)))).map
        (fun p => p.2.1) = st.entries.map Prod.fst := by
      have h3 : (fun p : ℕ × (String × (ℚ × ℚ)) => p.2.1)
          = Prod.fst ∘ Prod.snd := rfl
      rw [h3, ← List.map_map, PVS.annot_map_snd, List.map_map]
      rfl
    rw [h2] at h1
    exact h1
  refine ⟨?_, ?_, ?_, ?_, ?_, ?_⟩
  · rw [hres, List.length_map, List.length_take, hALlen]
  · intro h0
    have hALnil : AL = [] := by
      rw [← List.length_eq_zero, hALlen, h0]
      rfl
    rw [hres, hALnil]
    simp
  · intro id hid
    rw [hres] at hid
    obtain ⟨p, hpTake, rfl⟩ := List.mem_map.mp hid
    have hpAL : p ∈ AL := (List.take_sublist k AL).subset hpTake
    obtain ⟨e, hget, hsnd⟩ := Hpair p hpAL
    rw [hsnd]
    exact List.mem_map.mpr ⟨e, List.get?_mem hget, rfl⟩
  · rw [hres, List.map_take]
    refine List.Nodup.sublist (List.take_sublist _ _) ?_
    exact (hids_perm.nodup_iff).mpr hnd
  · rw [hres]
    refine List.Pairwise.map _ (fun a b h => h) ?_
    refine List.Pairwise.imp_of_mem ?_
      (List.Pairwise.sublist (List.take_sublist k AL) hPW)
    intro p p' hp hp' hS
    exact Htrans p p' ((List.take_sublist k AL).subset hp)
      ((List.take_sublist k AL).subset hp') hS
  · intro a ha b hb hbnot
    rw [hres] at ha hbnot
    obtain ⟨pa, hpaTake, rfl⟩ := List.mem_map.mp ha
    obtain ⟨j, hj⟩ := List.mem_iff_get?.mp hb
    rw [List.get?_map] at hj
    cases heb : st.entries.get? j with
    | none => rw [heb] at hj; simp at hj
    | some eb =>
      rw [heb] at hj
      simp only [Option.map_some'] at hj
      have hfst : eb.1 = b := Option.some.inj hj
      have hpbal : (j, (eb.1, PVS.simRep q eb.2)) ∈
          PVS.annot 0 (st.entries.map (fun e => (e.1, PVS.simRep q e.2))) := by
        have hlj : (st.entries.map (fun e => (e.1, PVS.simRep q e.2))).get? j
            = some (eb.1, PVS.simRep q eb.2) := by
          rw [List.get?_map, heb]
          rfl
        have hrec : (0 + j, (eb.1, PVS.simRep q eb.2)) ∈
            PVS.annot 0 (st.entries.map (fun e => (e.1, PVS.simRep q e.2))) :=
          PVS.annot_mem_of_get? hlj
        rwa [Nat.zero_add] at hrec
      have hpbAL : (j, (eb.1, PVS.simRep q eb.2)) ∈ AL :=
        hPerm.mem_iff.mpr hpbal
      have hpbDrop : (j, (eb.1, PVS.simRep q eb.2)) ∈ AL.drop k := by
        have hsplit : (j, (eb.1, PVS.simRep q eb.2)) ∈ AL.take k ++ AL.drop k := by
          rw [List.take_append_drop]
          exact hpbAL
        rcases List.mem_append.mp hsplit with hc | hc
        · exact absurd (List.mem_map.mpr ⟨_, hc, hfst⟩) hbnot
        · exact hc
      have hPW2 : (AL.take k ++ AL.drop k).Pairwise
          (PVS.SLexP (fun e => PVS.tval e.2)) := by
        rw [List.take_append_drop]
        exact hPW
      have hS := (List.pairwise_append.mp hPW2).2.2 pa hpaTake _ hpbDrop
      have := Htrans pa (j, (eb.1, PVS.simRep q eb.2))
        ((List.take_sublist k AL).subset hpaTake) hpbAL hS
      rwa [show (j, (eb.1, PVS.simRep q eb.2)).2.1 = b from hfst] at this

/-- A two-record store with orthogonal unit embeddings. -/
def c1Store : PVS.Store := ⟨[("a", [1, 0]), ("b", [0, 1])], [], 0⟩

/-- Witness for C1: the search specification applied to the concrete store
holding `"a" ↦ [1,0]` and `"b" ↦ [0,1]` with query `[1,0]` and `k = 1`. -/
theorem search_returns_topk_by_cosine_witness :
    ((0 : ℕ) < 1
      ∧ (c1Store.entries.map Prod.fst).Nodup
      ∧ 0 < PVS.sqMag [1, 0]
      ∧ (∀ e ∈ c1Store.entries, e.2.length = ([1, 0] : List ℚ).length)
      ∧ (∀ e ∈ c1Store.entries, 0 < PVS.sqMag e.2))
    ∧ ((PVS.search c1Store [1, 0] 1).length = min 1 c1Store.entries.length
      ∧ (c1Store.entries = [] → PVS.search c1Store [1, 0] 1 = [])
      ∧ (∀ id ∈ PVS.search c1Store [1, 0] 1, id ∈ c1Store.entries.map Prod.fst)
      ∧ (PVS.search c1Store [1, 0] 1).Nodup
      ∧ (PVS.search c1Store [1, 0] 1).Pairwise (fun a b =>
          PVS.cosineSimilarity [1, 0] (PVS.vecOf c1Store b)
              < PVS.cosineSimilarity [1, 0] (PVS.vecOf c1Store a)
          ∨ (PVS.cosineSimilarity [1, 0] (PVS.vecOf c1Store a)
                = PVS.cosineSimilarity [1, 0] (PVS.vecOf c1Store b)
              ∧ PVS.idxOf c1Store a < PVS.idxOf c1Store b))
      ∧ (∀ a ∈ PVS.search c1Store [1, 0] 1, ∀ b ∈ c1Store.entries.map Prod.fst,
          b ∉ PVS.search c1Store [1, 0] 1 →
          PVS.cosineSimilarity [1, 0] (PVS.vecOf c1Store b)
              < PVS.cosineSimilarity [1, 0] (PVS.vecOf c1Store a)
          ∨ (PVS.cosineSimilarity [1, 0] (PVS.vecOf c1Store a)
                = PVS.cosineSimilarity [1, 0] (PVS.vecOf c1Store b)
              ∧ PVS.idxOf c1Store a < PVS.idxOf c1Store b))) :=
  ⟨⟨by decide, by decide, by norm_num [PVS.sqMag], by decide,
      by norm_num [c1Store, PVS.sqMag]⟩,
    search_returns_topk_by_cosine c1Store [1, 0] 1
      (by decide) (by decide) (by norm_num [PVS.sqMag]) (by decide)
      (by norm_num [c1Store, PVS.sqMag])⟩
